import Mathlib

/-! Verification of the QWF quantum-wavefunction evaluation core.

Shallow embedding of the numerical evaluation engine of the QWF repository:
the complex-number algebra (`Sources/Rendering/Shaders/ComplexUtils.h`,
`Sources/Rendering/Utils/ComplexUtils.h`), the special-function library
(`Sources/Rendering/Shaders/ShaderUtils.h`) and the wavefunction evaluators and
field driver (`Sources/Rendering/Shaders/QuantumWaveFunctions.h`).

The source works on IEEE single-precision floats; the embedding models the
floating-point values as real numbers (exact real arithmetic), which is the
idealization the specification itself is written in.  `int` values are
modelled as `ℤ`.  C-style `for` loops are modelled as folds over the explicit
list of loop indices, so the number of loop iterations a call performs is the
length of that index list.
-/

namespace QWF

/- Real-valued definitions carry no executable code in Lean, so the embedding
lives in a noncomputable section; concrete evaluations in witnesses are done
by `simp`/`norm_num`. -/
noncomputable section

/-- The `ComplexType` struct of `ShaderUtils.h`: a pair of scalar components. -/
@[ext]
structure ComplexType where
  real : ℝ
  imag : ℝ

/-- The list of loop indices `start, start+1, …, start+count-1` that a C loop
`for (i = start; …; i++)` running `count` iterations visits. -/
def loopIdx (start : ℤ) (count : ℕ) : List ℤ :=
  (List.range count).map (fun (j : ℕ) => start + (j : ℤ))

theorem loopIdx_zero (start : ℤ) : loopIdx start 0 = [] := rfl

theorem loopIdx_succ (start : ℤ) (k : ℕ) :
    loopIdx start (k + 1) = loopIdx start k ++ [start + (k : ℤ)] := by
  simp [loopIdx, List.range_succ]

theorem loopIdx_length (start : ℤ) : ∀ count : ℕ, (loopIdx start count).length = count
  | 0 => rfl
  | (k + 1) => by
    rw [loopIdx_succ, List.length_append, loopIdx_length start k, List.length_singleton]

/-! ## Special functions (`ShaderUtils.h`) -/

/-- `factorial` of `ShaderUtils.h` (lines 93–101): `float` result; returns `1.0`
for `n <= 1`, otherwise multiplies `result` by `i` for `i = 2 .. n`. -/
def factorial (n : ℤ) : ℝ :=
  if n ≤ 1 then 1
  else (loopIdx 2 (n - 1).toNat).foldl (fun (result : ℝ) (i : ℤ) => result * (i : ℝ)) 1

/-- Number of loop iterations a call `factorial(n)` performs: the loop
`for (i = 2; i <= n; i++)` visits `(n-1).toNat` indices (zero when the
`n <= 1` guard returns early). -/
def factorial_iters (n : ℤ) : ℕ :=
  if n ≤ 1 then 0 else (loopIdx 2 (n - 1).toNat).length

/-- Loop body of `hermite` (line 113): from `(h0, h1)` and loop index `i`
compute `h2 = 2x·h1 − 2i·h0` and shift. -/
def hermiteStep (x : ℝ) (p : ℝ × ℝ) (i : ℤ) : ℝ × ℝ :=
  (p.2, 2 * x * p.2 - 2 * (i : ℝ) * p.1)

/-- `hermite` of `ShaderUtils.h` (lines 104–119): guards for `n == 0` and
`n == 1`, then the three-term recurrence loop `for (i = 1; i < n; i++)`,
returning `h1`. -/
def hermite (n : ℤ) (x : ℝ) : ℝ :=
  if n = 0 then 1
  else if n = 1 then 2 * x
  else ((loopIdx 1 (n - 1).toNat).foldl (hermiteStep x) (1, 2 * x)).2

/-- Number of loop iterations a call `hermite(n, x)` performs. -/
def hermite_iters (n : ℤ) : ℕ :=
  if n = 0 then 0
  else if n = 1 then 0
  else (loopIdx 1 (n - 1).toNat).length

/-- Loop body of `assoc_laguerre` (lines 131–135): from `(l0, l1)` and loop
index `i` (with `k = i`, `a = alpha`) compute
`l2 = ((2k+1+a−x)·l1 − (k+a)·l0)/(k+1)` and shift. -/
def laguerreStep (a x : ℝ) (p : ℝ × ℝ) (i : ℤ) : ℝ × ℝ :=
  (p.2, ((2 * (i : ℝ) + 1 + a - x) * p.2 - ((i : ℝ) + a) * p.1) / ((i : ℝ) + 1))

/-- `assoc_laguerre` of `ShaderUtils.h` (lines 122–139): guards for `n == 0`
and `n == 1`, then the three-term recurrence loop `for (i = 1; i < n; i++)`,
returning `l1`. -/
def assoc_laguerre (n : ℤ) (alpha : ℤ) (x : ℝ) : ℝ :=
  if n = 0 then 1
  else if n = 1 then 1 + (alpha : ℝ) - x
  else ((loopIdx 1 (n - 1).toNat).foldl (laguerreStep (alpha : ℝ) x)
    (1, 1 + (alpha : ℝ) - x)).2

/-- Number of loop iterations a call `assoc_laguerre(n, alpha, x)` performs. -/
def assoc_laguerre_iters (n : ℤ) : ℕ :=
  if n = 0 then 0
  else if n = 1 then 0
  else (loopIdx 1 (n - 1).toNat).length

/-- `calc_factorial` of `Sources/Rendering/Shaders/ComplexUtils.h`
(lines 81–87) and, identically, of `Sources/Rendering/Utils/ComplexUtils.h`
(lines 30–36): `int` result, no guard; `result = 1`, then `result *= i` for
`i = 2 .. n`. -/
def calc_factorial (n : ℤ) : ℤ :=
  (loopIdx 2 (n - 1).toNat).foldl (fun result i => result * i) 1

/-! ## Complex algebra (`Sources/Rendering/Shaders/ComplexUtils.h`) -/

/-- `complex_scale` (lines 37–39): componentwise multiply by a real scalar. -/
def complex_scale (z : ComplexType) (scale : ℝ) : ComplexType :=
  ⟨z.real * scale, z.imag * scale⟩

/-- `complex_mul_i` (lines 47–49): `(real, imag) → (-imag, real)`. -/
def complex_mul_i (a : ComplexType) : ComplexType :=
  ⟨-a.imag, a.real⟩

/-! ## Reference recurrences transcribed from the spec (§4.2)

Used to state the refinement claims C3/C4: the spec describes the special
functions by a mathematical three-term recurrence; these definitions follow
the spec's words and are compared with the loop-based source embeddings. -/

/-- Reference recurrence from the spec: `H_{k+1} = 2x·H_k − 2k·H_{k-1}`,
`H0 = 1`, `H1 = 2x`. -/
def hermiteRec (x : ℝ) : ℕ → ℝ
  | 0 => 1
  | 1 => 2 * x
  | (k + 2) => 2 * x * hermiteRec x (k + 1) - 2 * ((k : ℝ) + 1) * hermiteRec x k

/-- Reference recurrence from the spec:
`L_{k+1} = ((2k+1+α−x)·L_k − (k+α)·L_{k-1})/(k+1)`, `L0 = 1`, `L1 = 1+α−x`. -/
def laguerreRec (a x : ℝ) : ℕ → ℝ
  | 0 => 1
  | 1 => 1 + a - x
  | (k + 2) =>
    ((2 * ((k : ℝ) + 1) + 1 + a - x) * laguerreRec a x (k + 1) -
      ((k : ℝ) + 1 + a) * laguerreRec a x k) / ((k : ℝ) + 1 + 1)

theorem hermite_fold (x : ℝ) (k : ℕ) :
    (loopIdx 1 k).foldl (hermiteStep x) (1, 2 * x) =
      (hermiteRec x k, hermiteRec x (k + 1)) := by
  induction k with
  | zero => simp [loopIdx_zero, hermiteRec]
  | succ k ih =>
    rw [loopIdx_succ, List.foldl_append, ih]
    simp only [List.foldl_cons, List.foldl_nil, hermiteStep]
    have : ((1 + (k : ℤ) : ℤ) : ℝ) = (k : ℝ) + 1 := by push_cast; ring
    rw [this]
    show _ = (hermiteRec x (k + 1), hermiteRec x (k + 2))
    rw [hermiteRec]

theorem laguerre_fold (a x : ℝ) (k : ℕ) :
    (loopIdx 1 k).foldl (laguerreStep a x) (1, 1 + a - x) =
      (laguerreRec a x k, laguerreRec a x (k + 1)) := by
  induction k with
  | zero => simp [loopIdx_zero, laguerreRec]
  | succ k ih =>
    rw [loopIdx_succ, List.foldl_append, ih]
    simp only [List.foldl_cons, List.foldl_nil, laguerreStep]
    have h1 : ((1 + (k : ℤ) : ℤ) : ℝ) = (k : ℝ) + 1 := by push_cast; ring
    rw [h1]
    show _ = (laguerreRec a x (k + 1), laguerreRec a x (k + 2))
    rw [laguerreRec]

/-- The loop-based `hermite` agrees with the spec's recurrence on every
natural degree. -/
theorem hermite_eq_hermiteRec (n : ℕ) (x : ℝ) :
    hermite (n : ℤ) x = hermiteRec x n := by
  match n with
  | 0 => simp [hermite, hermiteRec]
  | 1 => simp [hermite, hermiteRec]
  | (k + 2) =>
    have h0 : ((k + 2 : ℕ) : ℤ) ≠ 0 := by omega
    have h1 : ((k + 2 : ℕ) : ℤ) ≠ 1 := by omega
    have h2 : (((k + 2 : ℕ) : ℤ) - 1).toNat = k + 1 := by omega
    rw [hermite, if_neg h0, if_neg h1, h2, hermite_fold]

/-- The loop-based `assoc_laguerre` agrees with the spec's recurrence on every
natural degree. -/
theorem assoc_laguerre_eq_laguerreRec (n : ℕ) (alpha : ℤ) (x : ℝ) :
    assoc_laguerre (n : ℤ) alpha x = laguerreRec (alpha : ℝ) x n := by
  match n with
  | 0 => simp [assoc_laguerre, laguerreRec]
  | 1 => simp [assoc_laguerre, laguerreRec]
  | (k + 2) =>
    have h0 : ((k + 2 : ℕ) : ℤ) ≠ 0 := by omega
    have h1 : ((k + 2 : ℕ) : ℤ) ≠ 1 := by omega
    have h2 : (((k + 2 : ℕ) : ℤ) - 1).toNat = k + 1 := by omega
    rw [assoc_laguerre, if_neg h0, if_neg h1, h2, laguerre_fold]

/-! ## Wavefunction evaluators (`QuantumWaveFunctions.h`) -/

/-- C-library `atan2(y, x)`: the angle of the point `(x, y)`, in `(−π, π]`,
with `atan2(0, x) = 0` for `x > 0`. -/
def atan2 (y x : ℝ) : ℝ :=
  if 0 < x then Real.arctan (y / x)
  else if x < 0 then
    (if 0 ≤ y then Real.arctan (y / x) + Real.pi else Real.arctan (y / x) - Real.pi)
  else if 0 < y then Real.pi / 2
  else if y < 0 then -(Real.pi / 2)
  else 0

/-- `free_particle` of `QuantumWaveFunctions.h` (lines 26–43).  The local
`omega` of the source is computed but never used; it is kept for fidelity. -/
def free_particle (x k0 sigma t mass hbar : ℝ) : ComplexType :=
  let omega := hbar * k0 * k0 / (2 * mass)
  let sigma_t := sigma * Real.sqrt (1 + (hbar * t / (mass * sigma * sigma)) ^ (2 : ℕ))
  let x0 : ℝ := 0
  let dx := x - x0 - hbar * k0 * t / mass
  let amplitude := Real.exp (-dx * dx / (2 * sigma_t * sigma_t)) /
    (2 * Real.pi * sigma_t * sigma_t) ^ ((0.25 : ℝ))
  let phase1 := k0 * dx
  let phase2 := atan2 (hbar * t) (2 * mass * sigma * sigma)
  let phase := phase1 - 0.5 * phase2
  ⟨amplitude * Real.cos phase, amplitude * Real.sin phase⟩

/-- `infinite_well` of `QuantumWaveFunctions.h` (lines 46–60). -/
def infinite_well (x L : ℝ) (n : ℤ) (t mass hbar : ℝ) : ComplexType :=
  if x < 0 ∨ x > L then ⟨0, 0⟩
  else
    let amplitude := Real.sqrt (2 / L) * Real.sin ((n : ℝ) * Real.pi * x / L)
    let energy := ((n : ℝ) * Real.pi * hbar) ^ (2 : ℕ) / (2 * mass * L * L)
    let phase := -energy * t / hbar
    ⟨amplitude * Real.cos phase, amplitude * Real.sin phase⟩

/-- `harmonic_oscillator` of `QuantumWaveFunctions.h` (lines 63–82).  The
source's `pow(2.0, n)` and `pow(alpha, 0.25)` are real powers (`rpow`). -/
def harmonic_oscillator (x : ℝ) (n : ℤ) (omega t mass hbar : ℝ) : ComplexType :=
  let alpha := Real.sqrt (mass * omega / hbar)
  let xScaled := alpha * x
  let herm := hermite n xScaled
  let norm := 1 / Real.sqrt ((2 : ℝ) ^ ((n : ℤ) : ℝ) * factorial n * Real.sqrt Real.pi) *
    alpha ^ ((0.25 : ℝ))
  let amplitude := norm * herm * Real.exp (-xScaled * xScaled / 2)
  let energy := hbar * omega * ((n : ℝ) + 0.5)
  let phase := -energy * t / hbar
  ⟨amplitude * Real.cos phase, amplitude * Real.sin phase⟩

/-- Transcription of the spec's harmonic-oscillator formula (§4.3, claim C1):
amplitude `Hₙ(ξ)·exp(−ξ²/2)/√(2ⁿ·n!·√π) · (mω/ħ)^{1/4}` with
`ξ = x·√(mω/ħ)`, phase `−ħω(n+½)·t/ħ`.  Stated from the spec's words for
comparison with the source embedding `harmonic_oscillator`. -/
def harmonic_oscillator_spec (x : ℝ) (n : ℤ) (omega t mass hbar : ℝ) : ComplexType :=
  let xi := x * Real.sqrt (mass * omega / hbar)
  let A := hermite n xi * Real.exp (-(xi * xi) / 2) /
      Real.sqrt ((2 : ℝ) ^ n.toNat * (Nat.factorial n.toNat : ℝ) * Real.sqrt Real.pi) *
      (mass * omega / hbar) ^ ((1 : ℝ) / 4)
  let phase := -(hbar * omega * ((n : ℝ) + 1 / 2)) * t / hbar
  ⟨A * Real.cos phase, A * Real.sin phase⟩

/-! ## Field-evaluation driver (`QuantumWaveFunctions.h`, lines 107–118)

The `device float2* psi` output buffer is modelled as a function `ℕ → ComplexType`
updated in place; `calculateHarmonicOscillatorState` runs the loop
`for (i = 0; i < size; i++) psi[i] = harmonic_oscillator(position[i], n, 1, 0, 1, 1)`. -/

/-- State of the driver's buffer after the first `i` loop iterations. -/
def calcHOLoop (psi : ℕ → ComplexType) (position : ℕ → ℝ) (n : ℤ) :
    ℕ → (ℕ → ComplexType)
  | 0 => psi
  | (i + 1) => Function.update (calcHOLoop psi position n i) i
      (harmonic_oscillator (position i) n 1 0 1 1)

/-- `calculateHarmonicOscillatorState`: run the loop for all `size` iterations
(with `omega = 1`, `t = 0`, `mass = 1`, `hbar = 1` as in the source). -/
def calculateHarmonicOscillatorState (psi : ℕ → ComplexType) (position : ℕ → ℝ)
    (n : ℤ) (size : ℕ) : ℕ → ComplexType :=
  calcHOLoop psi position n size

/-! ## Supporting lemmas -/

theorem factorial_fold (m : ℕ) :
    (loopIdx 2 m).foldl (fun (result : ℝ) (i : ℤ) => result * (i : ℝ)) 1 =
      (Nat.factorial (m + 1) : ℝ) := by
  induction m with
  | zero => simp [loopIdx_zero, Nat.factorial]
  | succ k ih =>
    rw [loopIdx_succ, List.foldl_append, ih]
    simp only [List.foldl_cons, List.foldl_nil]
    have h : Nat.factorial (k + 1 + 1) = (k + 2) * Nat.factorial (k + 1) := rfl
    rw [h]
    push_cast
    ring

/-- The source `factorial` agrees with the mathematical factorial on every
natural argument. -/
theorem factorial_eq_natFactorial (n : ℕ) :
    factorial (n : ℤ) = (Nat.factorial n : ℝ) := by
  match n with
  | 0 => simp [factorial, Nat.factorial]
  | 1 => simp [factorial, Nat.factorial]
  | (k + 2) =>
    have h2 : (((k + 2 : ℕ) : ℤ) - 1).toNat = k + 1 := by omega
    rw [factorial, if_neg (by omega), h2, factorial_fold]

/-! ## Claim theorems -/

/-- C2: for every positive well length `L` and every position `x` outside
`[0, L]`, `infinite_well` returns exactly the complex value `(0, 0)` — a
deterministic designed return on the out-of-domain branch. -/
theorem infinite_well_outside_eq_zero (x L : ℝ) (n : ℤ) (t mass hbar : ℝ)
    (hL : 0 < L) (hx : x < 0 ∨ x > L) :
    infinite_well x L n t mass hbar = ⟨0, 0⟩ := by
  rw [infinite_well, if_pos hx]

/-- Witness for C2 at `x = -1 < 0` and at `x = 2 > L = 1`. -/
theorem infinite_well_outside_eq_zero_witness :
    infinite_well (-1) 1 1 0 1 1 = ⟨0, 0⟩ ∧ infinite_well 2 1 1 0 1 1 = ⟨0, 0⟩ :=
  ⟨infinite_well_outside_eq_zero (-1) 1 1 0 1 1 one_pos (Or.inl (by norm_num)),
   infinite_well_outside_eq_zero 2 1 1 0 1 1 one_pos (Or.inr (by norm_num))⟩

/-- Buffer contents after `size` iterations of the driver loop. -/
theorem calcHOLoop_spec (psi : ℕ → ComplexType) (position : ℕ → ℝ) (n : ℤ)
    (size j : ℕ) :
    calcHOLoop psi position n size j =
      if j < size then harmonic_oscillator (position j) n 1 0 1 1 else psi j := by
  induction size with
  | zero => simp [calcHOLoop]
  | succ k ih =>
    show Function.update (calcHOLoop psi position n k) k
      (harmonic_oscillator (position k) n 1 0 1 1) j = _
    by_cases hj : j = k
    · subst hj
      rw [Function.update_same, if_pos (by omega)]
    · rw [Function.update_noteq hj, ih]
      by_cases hlt : j < k
      · rw [if_pos hlt, if_pos (by omega)]
      · rw [if_neg hlt, if_neg (by omega)]

/-- C6: the field driver writes exactly the first `size` samples of the output
buffer; sample `j < size` is `harmonic_oscillator` applied to `position j`
with the shared parameters `(n, omega = 1, t = 0, mass = 1, hbar = 1)`, and
every other buffer element is left untouched. -/
theorem calculateHarmonicOscillatorState_spec (psi : ℕ → ComplexType)
    (position : ℕ → ℝ) (n : ℤ) (size j : ℕ) :
    calculateHarmonicOscillatorState psi position n size j =
      if j < size then harmonic_oscillator (position j) n 1 0 1 1 else psi j :=
  calcHOLoop_spec psi position n size j

/-- C7: applying `complex_mul_i` twice equals `complex_scale` by `-1`:
rotating a complex value by 90° twice negates it componentwise. -/
theorem complex_mul_i_twice_eq_scale_neg_one (z : ComplexType) :
    complex_mul_i (complex_mul_i z) = complex_scale z (-1) := by
  ext <;> simp [complex_mul_i, complex_scale]

/-- C8: the loops of `factorial`, `hermite` and `assoc_laguerre` perform
exactly `max (n-1) 0` iterations for every integer `n` (in particular zero
for negative `n`), so every call — and hence every wavefunction evaluator
call — terminates; totality of the embedded definitions is by construction. -/
theorem special_function_iterations_eq_max (n : ℤ) :
    (factorial_iters n : ℤ) = max (n - 1) 0 ∧
    (hermite_iters n : ℤ) = max (n - 1) 0 ∧
    (assoc_laguerre_iters n : ℤ) = max (n - 1) 0 := by
  refine ⟨?_, ?_, ?_⟩ <;>
    simp only [factorial_iters, hermite_iters, assoc_laguerre_iters, loopIdx_length] <;>
    split_ifs <;> omega

/-- C9: for negative `n`, `factorial` takes the `n <= 1` early-return path and
yields `1.0`, and `calc_factorial`'s loop body never runs, yielding `1`. -/
theorem factorial_neg_eq_one (n : ℤ) (h : n < 0) :
    factorial n = 1 ∧ calc_factorial n = 1 := by
  have h1 : (n - 1).toNat = 0 := by omega
  constructor
  · rw [factorial, if_pos (by omega : n ≤ 1)]
  · rw [calc_factorial, h1]
    rfl

/-- Witness for C9 at `n = -1`. -/
theorem factorial_neg_eq_one_witness : factorial (-1) = 1 ∧ calc_factorial (-1) = 1 :=
  factorial_neg_eq_one (-1) (by norm_num)

/-- C10: for negative degree `n`, the recurrence loops of `hermite` and
`assoc_laguerre` run zero times and the second seed is returned: `2x`,
respectively `1 + alpha - x` — defined deterministic values. -/
theorem hermite_laguerre_neg_degree (n : ℤ) (h : n < 0) (x : ℝ) (a : ℤ) :
    hermite n x = 2 * x ∧ assoc_laguerre n a x = 1 + (a : ℝ) - x := by
  have h1 : (n - 1).toNat = 0 := by omega
  constructor
  · rw [hermite, if_neg (by omega), if_neg (by omega), h1]
    rfl
  · rw [assoc_laguerre, if_neg (by omega), if_neg (by omega), h1]
    rfl

/-- Witness for C10 at `n = -1`, `x = 3`, `alpha = 2`. -/
theorem hermite_laguerre_neg_degree_witness :
    hermite (-1) 3 = 2 * 3 ∧ assoc_laguerre (-1) 2 3 = 1 + ((2 : ℤ) : ℝ) - 3 :=
  hermite_laguerre_neg_degree (-1) (by norm_num) 3 2

/-- C3: `hermite` returns the seeds `H₀ = 1`, `H₁ = 2x`, and for every
`n ≥ 1` its values satisfy the physicists' three-term recurrence
`H_{n+1}(x) = 2x·H_n(x) − 2n·H_{n-1}(x)`. -/
theorem hermite_recurrence (n : ℕ) (hn : 1 ≤ n) (x : ℝ) :
    hermite 0 x = 1 ∧ hermite 1 x = 2 * x ∧
    hermite ((n : ℤ) + 1) x =
      2 * x * hermite (n : ℤ) x - 2 * (n : ℝ) * hermite ((n : ℤ) - 1) x := by
  obtain ⟨m, rfl⟩ : ∃ m, n = m + 1 := ⟨n - 1, by omega⟩
  refine ⟨by simp [hermite], by simp [hermite], ?_⟩
  have e1 : ((m + 1 : ℕ) : ℤ) + 1 = ((m + 2 : ℕ) : ℤ) := by push_cast; ring
  have e2 : ((m + 1 : ℕ) : ℤ) - 1 = ((m : ℕ) : ℤ) := by push_cast; ring
  rw [e1, e2, hermite_eq_hermiteRec, hermite_eq_hermiteRec, hermite_eq_hermiteRec]
  show hermiteRec x (m + 2) = _
  rw [hermiteRec]
  push_cast
  ring

/-- Witness for C3 at `n = 1`, `x = 0`. -/
theorem hermite_recurrence_witness :
    hermite 0 0 = 1 ∧ hermite 1 0 = 2 * 0 ∧
    hermite (((1 : ℕ) : ℤ) + 1) 0 =
      2 * 0 * hermite ((1 : ℕ) : ℤ) 0 -
        2 * ((1 : ℕ) : ℝ) * hermite (((1 : ℕ) : ℤ) - 1) 0 :=
  hermite_recurrence 1 le_rfl 0

/-- C4: `assoc_laguerre` returns the seeds `L₀ = 1`, `L₁ = 1 + α − x`, and on
every natural degree `n` it returns exactly the value of the spec's three-term
recurrence `L_{k+1} = ((2k+1+α−x)·L_k − (k+α)·L_{k-1})/(k+1)` applied from
those seeds (`laguerreRec`). -/
theorem assoc_laguerre_recurrence (a : ℤ) (x : ℝ) :
    assoc_laguerre 0 a x = 1 ∧ assoc_laguerre 1 a x = 1 + (a : ℝ) - x ∧
    ∀ n : ℕ, assoc_laguerre (n : ℤ) a x = laguerreRec (a : ℝ) x n :=
  ⟨by simp [assoc_laguerre], by simp [assoc_laguerre],
   fun n => assoc_laguerre_eq_laguerreRec n a x⟩

/-- C5: at `t = 0` the free-particle evaluator returns the static Gaussian
`exp(-x²/(2σ²))/(2πσ²)^{1/4}` times `(cos(k0·x), sin(k0·x))`: the
time-broadened width reduces to `σ`, the drift to `0`, and the `atan2` phase
correction to `0`. -/
theorem free_particle_t_zero (x k0 sigma mass hbar : ℝ)
    (hs : 0 < sigma) (hm : 0 < mass) (hh : 0 < hbar) :
    free_particle x k0 sigma 0 mass hbar =
      ⟨Real.exp (-x ^ 2 / (2 * sigma ^ 2)) / (2 * Real.pi * sigma ^ 2) ^ ((1 : ℝ) / 4) *
         Real.cos (k0 * x),
       Real.exp (-x ^ 2 / (2 * sigma ^ 2)) / (2 * Real.pi * sigma ^ 2) ^ ((1 : ℝ) / 4) *
         Real.sin (k0 * x)⟩ := by
  have hatan : atan2 (0 : ℝ) (2 * mass * sigma * sigma) = 0 := by
    have hpos : 0 < 2 * mass * sigma * sigma := by positivity
    rw [atan2, if_pos hpos, zero_div, Real.arctan_zero]
  have hq : (0.25 : ℝ) = 1 / 4 := by norm_num
  simp only [free_particle, mul_zero, zero_div, sub_zero, ne_eq,
    OfNat.ofNat_ne_zero, not_false_iff, zero_pow, add_zero, Real.sqrt_one,
    mul_one, hatan, hq]
  refine ComplexType.ext ?_ ?_ <;> ring_nf

/-- Witness for C5 at `x = 1`, `k0 = 1`, `σ = m = ħ = 1`. -/
theorem free_particle_t_zero_witness :
    free_particle 1 1 1 0 1 1 =
      ⟨Real.exp (-(1 : ℝ) ^ 2 / (2 * (1 : ℝ) ^ 2)) /
          (2 * Real.pi * (1 : ℝ) ^ 2) ^ ((1 : ℝ) / 4) * Real.cos (1 * 1),
       Real.exp (-(1 : ℝ) ^ 2 / (2 * (1 : ℝ) ^ 2)) /
          (2 * Real.pi * (1 : ℝ) ^ 2) ^ ((1 : ℝ) / 4) * Real.sin (1 * 1)⟩ :=
  free_particle_t_zero 1 1 1 1 1 one_pos one_pos one_pos

/-- C1 (amended): for `n ≥ 0` and positive `ω`, `m`, `ħ`, the
harmonic-oscillator evaluator's spatial amplitude is
`Hₙ(ξ)·exp(−ξ²/2)/√(2ⁿ·n!·√π)` multiplied by `(mω/ħ)^{1/8}` — the source
applies `pow(·, 0.25)` to `alpha = √(mω/ħ)`, not to `mω/ħ` — with
`ξ = x·√(mω/ħ)`; the phase factor at time `t` is cos/sin of
`−ħω(n+½)·t/ħ`. -/
theorem harmonic_oscillator_closed_form (x : ℝ) (n : ℤ) (omega t mass hbar : ℝ)
    (hn : 0 ≤ n) (hw : 0 < omega) (hm : 0 < mass) (hh : 0 < hbar) :
    harmonic_oscillator x n omega t mass hbar =
      ⟨hermite n (x * Real.sqrt (mass * omega / hbar)) *
         Real.exp (-(x * Real.sqrt (mass * omega / hbar)) ^ 2 / 2) /
         Real.sqrt ((2 : ℝ) ^ n.toNat * (Nat.factorial n.toNat : ℝ) * Real.sqrt Real.pi) *
         (mass * omega / hbar) ^ ((1 : ℝ) / 8) *
         Real.cos (-(hbar * omega * ((n : ℝ) + 1 / 2)) * t / hbar),
       hermite n (x * Real.sqrt (mass * omega / hbar)) *
         Real.exp (-(x * Real.sqrt (mass * omega / hbar)) ^ 2 / 2) /
         Real.sqrt ((2 : ℝ) ^ n.toNat * (Nat.factorial n.toNat : ℝ) * Real.sqrt Real.pi) *
         (mass * omega / hbar) ^ ((1 : ℝ) / 8) *
         Real.sin (-(hbar * omega * ((n : ℝ) + 1 / 2)) * t / hbar)⟩ := by
  obtain ⟨m, rfl⟩ : ∃ m : ℕ, n = (m : ℤ) := ⟨n.toNat, (Int.toNat_of_nonneg hn).symm⟩
  have hc : (0 : ℝ) < mass * omega / hbar := by positivity
  have halpha : Real.sqrt (mass * omega / hbar) ^ ((0.25 : ℝ)) =
      (mass * omega / hbar) ^ ((1 : ℝ) / 8) := by
    rw [Real.sqrt_eq_rpow, ← Real.rpow_mul hc.le]
    norm_num
  have ht : ((m : ℕ) : ℤ).toNat = m := by omega
  have h2n : (2 : ℝ) ^ ((((m : ℕ) : ℤ)) : ℝ) = (2 : ℝ) ^ (m : ℕ) := by
    rw [Int.cast_natCast, Real.rpow_natCast]
  have hfact : factorial (m : ℤ) = (Nat.factorial m : ℝ) := factorial_eq_natFactorial m
  simp only [harmonic_oscillator, halpha, ht, h2n, hfact]
  refine ComplexType.ext ?_ ?_ <;> ring_nf

/-- Witness for the amended C1 at `x = 0`, `n = 0`, `ω = m = ħ = 1`, `t = 0`. -/
theorem harmonic_oscillator_closed_form_witness :
    harmonic_oscillator 0 0 1 0 1 1 =
      ⟨hermite 0 (0 * Real.sqrt (1 * 1 / 1)) *
         Real.exp (-(0 * Real.sqrt (1 * 1 / 1)) ^ 2 / 2) /
         Real.sqrt ((2 : ℝ) ^ (0 : ℤ).toNat *
           (Nat.factorial (0 : ℤ).toNat : ℝ) * Real.sqrt Real.pi) *
         ((1 : ℝ) * 1 / 1) ^ ((1 : ℝ) / 8) *
         Real.cos (-((1 : ℝ) * 1 * (((0 : ℤ) : ℝ) + 1 / 2)) * 0 / 1),
       hermite 0 (0 * Real.sqrt (1 * 1 / 1)) *
         Real.exp (-(0 * Real.sqrt (1 * 1 / 1)) ^ 2 / 2) /
         Real.sqrt ((2 : ℝ) ^ (0 : ℤ).toNat *
           (Nat.factorial (0 : ℤ).toNat : ℝ) * Real.sqrt Real.pi) *
         ((1 : ℝ) * 1 / 1) ^ ((1 : ℝ) / 8) *
         Real.sin (-((1 : ℝ) * 1 * (((0 : ℤ) : ℝ) + 1 / 2)) * 0 / 1)⟩ :=
  harmonic_oscillator_closed_form 0 0 1 0 1 1 le_rfl one_pos one_pos one_pos

/-- C1 as stated is false on the code: at `x = 0`, `n = 0`, `ω = 1`, `t = 0`,
`m = 16`, `ħ = 1` the code's amplitude carries `alpha^{0.25} = (mω/ħ)^{1/8}
= √2`, while the claimed formula carries `(mω/ħ)^{1/4} = 2`. -/
theorem harmonic_oscillator_spec_counterexample :
    harmonic_oscillator 0 0 1 0 16 1 ≠ harmonic_oscillator_spec 0 0 1 0 16 1 := by
  have hsqrt16 : Real.sqrt (16 * 1 / 1) = 4 := by
    rw [show (16 * 1 / 1 : ℝ) = 4 ^ 2 by norm_num,
      Real.sqrt_sq (by norm_num : (0 : ℝ) ≤ 4)]
  have h24 : Real.sqrt 2 ^ (4 : ℕ) = 4 := by
    rw [show (4 : ℕ) = 2 * 2 from rfl, pow_mul,
      Real.sq_sqrt (by norm_num : (0 : ℝ) ≤ 2)]
    norm_num
  have h4 : (4 : ℝ) ^ ((1 : ℝ) / 4) = Real.sqrt 2 := by
    rw [show (1 : ℝ) / 4 = ((4 : ℕ) : ℝ)⁻¹ by norm_num, ← h24,
      Real.pow_rpow_inv_natCast (Real.sqrt_nonneg 2) (by norm_num)]
  have h16 : (16 : ℝ) ^ ((1 : ℝ) / 4) = 2 := by
    rw [show (16 : ℝ) = 2 ^ (4 : ℕ) by norm_num,
      show (1 : ℝ) / 4 = ((4 : ℕ) : ℝ)⁻¹ by norm_num,
      Real.pow_rpow_inv_natCast (by norm_num : (0 : ℝ) ≤ 2) (by norm_num)]
  have hpp : (0 : ℝ) < Real.sqrt (Real.sqrt Real.pi) :=
    Real.sqrt_pos.mpr (Real.sqrt_pos.mpr Real.pi_pos)
  have hlt : Real.sqrt 2 < 2 := by
    have h4' : Real.sqrt 4 = 2 := by
      rw [show (4 : ℝ) = 2 ^ 2 by norm_num, Real.sqrt_sq (by norm_num : (0 : ℝ) ≤ 2)]
    calc Real.sqrt 2 < Real.sqrt 4 := Real.sqrt_lt_sqrt (by norm_num) (by norm_num)
      _ = 2 := h4'
  intro h
  have hr := congrArg ComplexType.real h
  simp only [harmonic_oscillator, harmonic_oscillator_spec] at hr
  rw [hsqrt16] at hr
  norm_num [hermite, factorial, Real.rpow_zero, h16] at hr
  rcases hr with hr | hr
  · rw [h4] at hr
    exact absurd hr hlt.ne
  · exact absurd hr (Real.sqrt_pos.mpr Real.pi_pos).ne'

end

end QWF
